import Mathlib

/-
Verification development for the habemus virtual-fs repository (hfs).

The repository exposes a sandboxed filesystem rooted at a fixed directory.
Paths handed to the API are logical, root-relative strings; the engine
normalizes them, resolves them against the root, checks preconditions via
stat, delegates the bulk I/O, maps error codes to a typed taxonomy and
publishes change events unless suppressed.

The source has two variants of the engine:
- the root variant (src/unnamed/part_003, the second half of part_002,
  part_000 and src/lib/directory.js): fields root and suppressFsEvents,
  events routed through publishFsEvent;
- the watcher variant (first halves of part_004 and part_002, plus the
  fs-watching module at the end of part_004): field vfs and flag
  usingFsWatcher, events routed through emitFsEvent.

The filesystem itself is modelled as an association list from logical
segment lists to nodes; string-level path handling (split on the slash,
startsWith, trailing-slash trimming) mirrors the JavaScript string
operations character by character, because one claim is specifically about
the textual prefix test in isPathWithin.
-/

namespace VirtualFs

/-! ## String-level path helpers (src/unnamed auxiliary.js, last part of lib) -/

/-- Splits a character list at every slash, keeping empty pieces, exactly
like the JavaScript expression str.split(given a single-character
separator). The empty list yields one empty piece. -/
def splitSlash : List Char → List (List Char)
  | [] => [[]]
  | c :: rest =>
    let r := splitSlash rest
    if c = '/' then [] :: r
    else
      match r with
      | [] => [[c]]
      | h :: t => (c :: h) :: t

/-- Boolean string prefix test over the underlying character lists,
modelling the JavaScript method startsWith. -/
def strStartsWith (s pre : String) : Bool :=
  pre.data.isPrefixOf s.data

/-- Models aux.ensureStartingFwSlash: prepends a slash when the path does
not already start with one. -/
def ensureStartingFwSlash (path : String) : String :=
  if strStartsWith path "/" then path else "/" ++ path

/-- Models aux.trimTrailing: removes a single trailing slash, if any
(the JavaScript replace with the regular expression for a final slash). -/
def trimTrailing (p : String) : String :=
  if p.data.getLast? = some '/' then ⟨p.data.dropLast⟩ else p

/-- Models the helper isPathWithin of src/unnamed/part_003 lines 23 to 26:
true iff the path textually starts with the potential parent and splits
into strictly more slash-separated pieces. This is a character-level test,
not a segment-level one. -/
def isPathWithin (path potentialParent : String) : Bool :=
  strStartsWith path potentialParent &&
    decide ((splitSlash potentialParent.data).length < (splitSlash path.data).length)

/-! ## Error taxonomy (src/unnamed/part_001 errors.js; IllegalPath comes
from the external vroot package, raw carries an unmapped I/O error code) -/

/-- Low-level I/O error codes recognized by the engine error mapping. -/
inductive FsErr
  | ENOENT
  | ENOTDIR
  | EISDIR
  | EEXIST
deriving DecidableEq, Repr

/-- Typed error taxonomy of errors.js, plus the IllegalPath containment
error of the external sandbox and a raw constructor for underlying I/O
errors that propagate unchanged. -/
inductive HFsError
  | InvalidOption (option : String) (kind : String)
  | PathExists (path : String)
  | PathDoesNotExist (path : String)
  | PathIsDirectory (path : String)
  | PathIsNotDirectory (path : String)
  | IllegalPath (path : String)
  | raw (code : FsErr)
deriving DecidableEq, Repr

/-! ## Filesystem model -/

/-- A node of the sandboxed subtree: a file with string contents, or a
directory. Symlinks are out of scope of the modelled claims. -/
inductive FNode
  | file (contents : String)
  | dir
deriving DecidableEq, Repr

/-- Mirrors the stat projection isDirectory. -/
def FNode.isDirectory : FNode → Bool
  | .dir => true
  | .file _ => false

/-- Mirrors the stat projection isFile. -/
def FNode.isFile : FNode → Bool
  | .file _ => true
  | .dir => false

/-- The on-disk subtree under the root, keyed by logical path segments.
The root directory itself is implicit and always exists. -/
abbrev Fs := List (List String × FNode)

/-- First-match association lookup of a key in the filesystem. -/
def lookupFs : Fs → List String → Option FNode
  | [], _ => none
  | (k, n) :: rest, key => if k = key then some n else lookupFs rest key

/-- Published change event: a type tag such as file-created and the
logical path it concerns. -/
structure Event where
  type : String
  path : String
deriving DecidableEq, Repr

instance {ε α : Type} [DecidableEq ε] [DecidableEq α] : DecidableEq (Except ε α)
  | .ok a, .ok b =>
    if h : a = b then .isTrue (by rw [h]) else .isFalse (fun hh => h (Except.ok.inj hh))
  | .ok _, .error _ => .isFalse (fun h => Except.noConfusion h)
  | .error _, .ok _ => .isFalse (fun h => Except.noConfusion h)
  | .error a, .error b =>
    if h : a = b then .isTrue (by rw [h]) else .isFalse (fun hh => h (Except.error.inj hh))

/-- Result of one engine operation: the outcome, the filesystem after the
call and the events published during the call, in publication order. -/
structure OpOut (α : Type) where
  outcome : Except HFsError α
  fs : Fs
  events : List Event
deriving DecidableEq, Repr

/-- Stat of a node at a segment path. The root (empty segment list) always
exists and is a directory; a missing entry reports ENOENT. -/
def statFs (fs : Fs) (segs : List String) : Except FsErr FNode :=
  if segs = [] then .ok .dir
  else
    match lookupFs fs segs with
    | some n => .ok n
    | none => .error .ENOENT

/-- Read of the byte contents at a segment path, with the error codes the
node fs.readFile reports: EISDIR for a directory, ENOENT when missing. -/
def fsRead (fs : Fs) (segs : List String) : Except FsErr String :=
  if segs = [] then .error .EISDIR
  else
    match lookupFs fs segs with
    | none => .error .ENOENT
    | some .dir => .error .EISDIR
    | some (.file c) => .ok c

/-- Write of file contents at a segment path, with the error codes the
node fs.writeFile reports: the parent must be an existing directory and
the target must not be a directory. A successful write prepends the new
entry, shadowing any previous one. -/
def fsWrite (fs : Fs) (segs : List String) (contents : String) : Except FsErr Fs :=
  if segs = [] then .error .EISDIR
  else
    match (if segs.dropLast = [] then Except.ok FNode.dir else
           match lookupFs fs segs.dropLast with
           | some n => Except.ok n
           | none => Except.error FsErr.ENOENT) with
    | .error e => .error e
    | .ok (.file _) => .error .ENOTDIR
    | .ok .dir =>
      match lookupFs fs segs with
      | some .dir => .error .EISDIR
      | _ => .ok ((segs, .file contents) :: fs)

/-- Worker for the recursive directory creation: walks the remaining
segments, creating each missing intermediate directory, and fails when a
path component is occupied by a file. Models the EnsureDirectory contract
consumed from the external mkdirp module. -/
def mkdirpGo (fs : Fs) (done : List String) (rest : List String) : Except FsErr Fs :=
  match rest with
  | [] => .ok fs
  | s :: rest' =>
    match lookupFs fs (done ++ [s]) with
    | some (.file _) => .error .ENOTDIR
    | some .dir => mkdirpGo fs (done ++ [s]) rest'
    | none => mkdirpGo ((done ++ [s], FNode.dir) :: fs) (done ++ [s]) rest'

/-- Recursive directory creation at a segment path (external mkdirp). -/
def mkdirpFs (fs : Fs) (segs : List String) : Except FsErr Fs :=
  mkdirpGo fs [] segs

/-- Extracts the basename of a direct child key of the given directory
segments, if the key is one. -/
def childName (segs : List String) (k : List String) : Option String :=
  if k.take segs.length = segs then
    match k.drop segs.length with
    | [n] => some n
    | _ => none
  else none

/-- Basenames of the direct children listed for a directory, in entry
order, modelling the node fs.readdir listing. -/
def childNames (fs : Fs) (segs : List String) : List String :=
  fs.filterMap (fun e => childName segs e.1)

/-- Directory listing with the node fs.readdir error codes: ENOENT when
the path is missing, ENOTDIR when it is a file. -/
def readdirFs (fs : Fs) (segs : List String) : Except FsErr (List String) :=
  match statFs fs segs with
  | .error e => .error e
  | .ok (.file _) => .error .ENOTDIR
  | .ok .dir => .ok (childNames fs segs)

/-- Recursive all-or-nothing copy of the subtree at fromSegs to toSegs,
modelling the RecursiveCopy contract consumed from the external cpr
module. -/
def cprFs (fs : Fs) (fromSegs toSegs : List String) : Fs :=
  (fs.filterMap (fun e =>
    if e.1.take fromSegs.length = fromSegs then
      some (toSegs ++ e.1.drop fromSegs.length, e.2)
    else none)) ++ fs

/-- Recursive delete of the subtree at segs, modelling the RecursiveDelete
contract consumed from the external rimraf module. -/
def rimrafFs (fs : Fs) (segs : List String) : Fs :=
  fs.filter (fun e => !(segs.isPrefixOf e.1))

/-! ## Path resolution -/

/-- Stack machine over slash-separated pieces: empty pieces and single
dots are skipped, a double dot pops one segment and fails when the stack
is already empty (the path would escape the root), anything else is
pushed. -/
def normStack : List String → List String → Option (List String)
  | acc, [] => some acc
  | acc, s :: rest =>
    if s = "" ∨ s = "." then normStack acc rest
    else if s = ".." then
      match acc with
      | [] => none
      | _ => normStack acc.dropLast rest
    else normStack (acc ++ [s]) rest

/-- The slash-separated pieces of a path string. -/
def strSegs (p : String) : List String :=
  (splitSlash p.data).map (fun cs => (⟨cs⟩ : String))

/-- Normalized logical segments of a path string; none when normalization
escapes the root. -/
def normSegs (p : String) : Option (List String) :=
  normStack [] (strSegs p)

/-- Joins segments with slashes. -/
def joinSegs : List String → String
  | [] => ""
  | [s] => s
  | s :: rest => s ++ "/" ++ joinSegs rest

/-- A plain path segment: nonempty, not a dot segment, and free of
slashes. Real directory listings only ever produce plain basenames. -/
def plainSeg (s : String) : Prop :=
  s ≠ "" ∧ s ≠ "." ∧ s ≠ ".." ∧ '/' ∉ s.data

instance (s : String) : Decidable (plainSeg s) := by
  unfold plainSeg; infer_instance

/-- A real path lies strictly under the root: it is the root, a slash,
then a nonempty run of plain segments. -/
def strictlyUnder (root r : String) : Prop :=
  ∃ segs, segs ≠ [] ∧ (∀ x ∈ segs, plainSeg x) ∧ r = root ++ "/" ++ joinSegs segs

/-- Modelled from the spec: the PathSandbox resolve operation. The code
that decides it (prependTo of the root-path-builder package and
joinAbsolutePath of the vroot package) is external to src, which only
holds its callers and a test expecting IllegalPath on escape. Per the
spec, resolution normalizes the joined path fully before the containment
check, rejects any resolution that exits the root subtree as IllegalPath,
and the generic resolve does not grant whole-root access. -/
def resolve (root : String) (logicalPath : String) : Except HFsError String :=
  match normSegs logicalPath with
  | none => .error (.IllegalPath logicalPath)
  | some [] => .error (.IllegalPath logicalPath)
  | some segs => .ok (root ++ "/" ++ joinSegs segs)

/-! ## Shared engine pieces -/

/-- Stat of a logical path string: resolution through the sandbox (an
escaping path is an IllegalPath error), then a stat of the resolved
node; underlying codes are carried by the raw constructor. Models
HFs.prototype.stat of src/unnamed/part_003 lines 61 to 70 and the vfs
variant of part_004 lines 39 to 50. -/
def statLogical (fs : Fs) (path : String) : Except HFsError FNode :=
  match normSegs path with
  | none => .error (.IllegalPath path)
  | some segs =>
    match statFs fs segs with
    | .ok n => .ok n
    | .error e => .error (.raw e)

/-- The type filter of pathExists: a missing or falsy type always
matches, directory and file require the corresponding stat projection,
and any other type string matches nothing. Mirrors the body of
HFs.prototype.pathExists, src/unnamed/part_003 lines 83 to 95. -/
def typeMatches (type : Option String) (stats : FNode) : Bool :=
  match type with
  | none => true
  | some t =>
    if t = "" then true
    else if t = "directory" then stats.isDirectory
    else if t = "file" then stats.isFile
    else false

/-- The then-catch chain of pathExists applied to a stat outcome: success
yields the type match, a raw ENOENT collapses to false, every other
error is re-raised unchanged. Mirrors src/unnamed/part_003 lines 83 to
105. -/
def pathExistsHandler (statOutcome : Except HFsError FNode) (type : Option String) :
    Except HFsError Bool :=
  match statOutcome with
  | .ok stats => .ok (typeMatches type stats)
  | .error (.raw .ENOENT) => .ok false
  | .error e => .error e

/-! ## The root variant of the engine (part_003, second half of part_002,
part_000, src/lib/directory.js) -/

/-- State of the root-variant HFs instance: the subtree contents and the
suppressFsEvents flag set at construction. -/
structure HFs where
  fs : Fs
  suppressFsEvents : Bool
deriving DecidableEq, Repr

/-- Models HFs.prototype.stat, src/unnamed/part_003 lines 61 to 70. -/
def HFs.stat (h : HFs) (path : String) : Except HFsError FNode :=
  statLogical h.fs path

/-- Models HFs.prototype.pathExists, src/unnamed/part_003 lines 78 to
106: a falsy path is an InvalidOption, otherwise the stat outcome goes
through the exists handler. -/
def HFs.pathExists (h : HFs) (path : String) (type : Option String) : Except HFsError Bool :=
  if path = "" then .error (.InvalidOption "path" "required")
  else pathExistsHandler (h.stat path) type

/-- Models HFs.prototype.publishFsEvent, src/unnamed/part_003 lines 111
to 116: the event list contributed by one publish call, empty while
suppression is active. -/
def HFs.publishFsEvent (h : HFs) (ev : Event) : List Event :=
  if h.suppressFsEvents then [] else [ev]

/-- Models createFile of the second half of src/unnamed/part_002, lines
177 to 213: falsy check, slash normalization, existence precondition
(PathExists when occupied), recursive creation of the parent directories,
write, then a file-created publish. -/
def HFs.createFile (h : HFs) (filepath : String) (contents : String) : OpOut Unit :=
  if filepath = "" then ⟨.error (.InvalidOption "filepath" "required"), h.fs, []⟩
  else
    let fp := ensureStartingFwSlash filepath
    match h.pathExists fp none with
    | .error e => ⟨.error e, h.fs, []⟩
    | .ok true => ⟨.error (.PathExists fp), h.fs, []⟩
    | .ok false =>
      match normSegs fp with
      | none => ⟨.error (.IllegalPath fp), h.fs, []⟩
      | some segs =>
        match mkdirpFs h.fs segs.dropLast with
        | .error e => ⟨.error (.raw e), h.fs, []⟩
        | .ok fs1 =>
          match fsWrite fs1 segs contents with
          | .error e => ⟨.error (.raw e), fs1, []⟩
          | .ok fs2 => ⟨.ok (), fs2, h.publishFsEvent ⟨"file-created", fp⟩⟩

/-- Models readFile of the second half of src/unnamed/part_002, lines 220
to 246: falsy check, slash normalization, resolution, read, and the error
mapping ENOENT to PathDoesNotExist and EISDIR to PathIsDirectory; other
errors propagate unchanged. -/
def HFs.readFile (h : HFs) (filepath : String) : Except HFsError String :=
  if filepath = "" then .error (.InvalidOption "filepath" "required")
  else
    let fp := ensureStartingFwSlash filepath
    match normSegs fp with
    | none => .error (.IllegalPath fp)
    | some segs =>
      match fsRead h.fs segs with
      | .ok c => .ok c
      | .error .ENOENT => .error (.PathDoesNotExist fp)
      | .error .EISDIR => .error (.PathIsDirectory fp)
      | .error e => .error (.raw e)

/-- Models createDirectory of src/unnamed/part_000, lines 22 to 49: falsy
check, slash normalization, existence precondition checked before the
recursive mkdir because mkdirp does not fail on an existing directory,
then the recursive mkdir and a directory-created publish. -/
def HFs.createDirectory (h : HFs) (dirpath : String) : OpOut Unit :=
  if dirpath = "" then ⟨.error (.InvalidOption "dirpath" "required"), h.fs, []⟩
  else
    let dp := ensureStartingFwSlash dirpath
    match h.pathExists dp none with
    | .error e => ⟨.error e, h.fs, []⟩
    | .ok true => ⟨.error (.PathExists dp), h.fs, []⟩
    | .ok false =>
      match normSegs dp with
      | none => ⟨.error (.IllegalPath dp), h.fs, []⟩
      | some segs =>
        match mkdirpFs h.fs segs with
        | .error e => ⟨.error (.raw e), h.fs, []⟩
        | .ok fs1 => ⟨.ok (), fs1, h.publishFsEvent ⟨"directory-created", dp⟩⟩

/-- Wire-transfer projection of one directory child, as built by
readDirectory. -/
structure DirEntry where
  path : String
  basename : String
  isDirectory : Bool
  isFile : Bool
deriving DecidableEq, Repr

/-- Normalization readDirectory applies to its argument before any I/O:
a leading slash is ensured and a trailing slash trimmed, so the root
itself is named by the empty result. -/
def normDirPath (dirpath : String) : String :=
  trimTrailing (ensureStartingFwSlash dirpath)

/-- The per-child loop of readDirectory: for each listed basename the
child path is built by string concatenation of the validated parent path
with the raw basename (never by re-resolving client input), the child is
stated, and the wire projection is returned; the first failing stat fails
the whole call, as with the combined promise of the source. -/
def statEntries (fs : Fs) (dp : String) : List String → Except HFsError (List DirEntry)
  | [] => .ok []
  | name :: rest =>
    match statLogical fs (dp ++ "/" ++ name) with
    | .error e => .error e
    | .ok n =>
      match statEntries fs dp rest with
      | .error e => .error e
      | .ok entries => .ok (⟨dp ++ "/" ++ name, name, n.isDirectory, n.isFile⟩ :: entries)

/-- Models readDirectory of src/lib/directory.js, lines 52 to 111: slash
normalization and trailing-slash trim, the empty result naming the root
itself, the readdir error mapping (ENOENT to PathDoesNotExist, ENOTDIR to
PathIsNotDirectory, others unchanged), then one stat per listed child. -/
def HFs.readDirectory (h : HFs) (dirpath : String) : Except HFsError (List DirEntry) :=
  let dp := normDirPath dirpath
  match (if dp = "" then some [] else normSegs dp) with
  | none => .error (.IllegalPath dp)
  | some segs =>
    match readdirFs h.fs segs with
    | .error .ENOENT => .error (.PathDoesNotExist dp)
    | .error .ENOTDIR => .error (.PathIsNotDirectory dp)
    | .error e => .error (.raw e)
    | .ok names => statEntries h.fs dp names

/-- Models HFs.prototype.move, src/unnamed/part_003 lines 118 to 202:
falsy checks, slash normalization before the within check, the
isPathWithin rejection as InvalidOption on toPath, resolution of both
ends, the combined stat of fromPath and existence probe of toPath, the
PathExists rejection, then copy, created publish, delete, removed
publish; a trailing catch maps ENOENT to PathDoesNotExist of fromPath. -/
def HFs.move (h : HFs) (fromPath toPath : String) : OpOut Unit :=
  if fromPath = "" then ⟨.error (.InvalidOption "fromPath" "required"), h.fs, []⟩
  else if toPath = "" then ⟨.error (.InvalidOption "toPath" "required"), h.fs, []⟩
  else
    let fp := ensureStartingFwSlash fromPath
    let tp := ensureStartingFwSlash toPath
    if isPathWithin tp fp then
      ⟨.error (.InvalidOption "toPath" "invalidPath"), h.fs, []⟩
    else
      match normSegs fp, normSegs tp with
      | none, _ => ⟨.error (.IllegalPath fp), h.fs, []⟩
      | _, none => ⟨.error (.IllegalPath tp), h.fs, []⟩
      | some fromSegs, some toSegs =>
        match statFs h.fs fromSegs with
        | .error .ENOENT => ⟨.error (.PathDoesNotExist fp), h.fs, []⟩
        | .error e => ⟨.error (.raw e), h.fs, []⟩
        | .ok fromStats =>
          match pathExistsHandler (h.stat tp) none with
          | .error e => ⟨.error e, h.fs, []⟩
          | .ok true => ⟨.error (.PathExists tp), h.fs, []⟩
          | .ok false =>
            let isDir := fromStats.isDirectory
            let fs1 := cprFs h.fs fromSegs toSegs
            let ev1 := h.publishFsEvent
              ⟨(if isDir then "directory-created" else "file-created"), tp⟩
            let fs2 := rimrafFs fs1 fromSegs
            let ev2 := h.publishFsEvent
              ⟨(if isDir then "directory-removed" else "file-removed"), fp⟩
            ⟨.ok (), fs2, ev1 ++ ev2⟩

/-! ## The watcher variant of the engine (first halves of part_004 and
part_002, fs-watching module) -/

/-- State of the watcher-variant HFs instance: the subtree contents and
the usingFsWatcher flag the fs-watching module toggles. -/
structure WHFs where
  fs : Fs
  usingFsWatcher : Bool
deriving DecidableEq, Repr

/-- Models the private emit helper of src/unnamed/part_004 lines 79 to
86: the event list contributed by one call, empty while a watcher is in
use, because the watcher is then the sole publisher. -/
def WHFs.emitFsEvent (h : WHFs) (ev : Event) : List Event :=
  if h.usingFsWatcher then [] else [ev]

/-- Models the watcher-variant pathExists, src/unnamed/part_004 lines 57
to 72 (no type argument, no falsy check). -/
def WHFs.pathExists (h : WHFs) (path : String) : Except HFsError Bool :=
  pathExistsHandler (statLogical h.fs path) none

/-- Models createFile of the first half of src/unnamed/part_002, lines 18
to 52: falsy check, slash normalization, existence precondition, a plain
write through the vfs (no parent creation in this variant), then a
file-created event routed through the emit helper, so it is discarded
while the watcher is active. -/
def WHFs.createFile (h : WHFs) (filepath : String) (contents : String) : OpOut Unit :=
  if filepath = "" then ⟨.error (.InvalidOption "filepath" "required"), h.fs, []⟩
  else
    let fp := ensureStartingFwSlash filepath
    match h.pathExists fp with
    | .error e => ⟨.error e, h.fs, []⟩
    | .ok true => ⟨.error (.PathExists fp), h.fs, []⟩
    | .ok false =>
      match normSegs fp with
      | none => ⟨.error (.IllegalPath fp), h.fs, []⟩
      | some segs =>
        match fsWrite h.fs segs contents with
        | .error e => ⟨.error (.raw e), h.fs, []⟩
        | .ok fs1 => ⟨.ok (), fs1, h.emitFsEvent ⟨"file-created", fp⟩⟩

/-- Models updateFile of the first half of src/unnamed/part_002, lines
105 to 152: falsy check, slash normalization, stat (a directory is a
PathIsDirectory error, a missing path maps ENOENT to PathDoesNotExist),
write, and then the file-updated event. Line 148 of the source emits the
event with the inherited EventEmitter emit directly, bypassing the emit
helper, so this variant publishes even while the watcher is active. -/
def WHFs.updateFile (h : WHFs) (filepath : String) (contents : String) : OpOut Unit :=
  if filepath = "" then ⟨.error (.InvalidOption "filepath" "required"), h.fs, []⟩
  else
    let fp := ensureStartingFwSlash filepath
    match statLogical h.fs fp with
    | .ok stats =>
      if stats.isDirectory then ⟨.error (.PathIsDirectory fp), h.fs, []⟩
      else
        match normSegs fp with
        | none => ⟨.error (.IllegalPath fp), h.fs, []⟩
        | some segs =>
          match fsWrite h.fs segs contents with
          | .error e => ⟨.error (.raw e), h.fs, []⟩
          | .ok fs1 => ⟨.ok (), fs1, [⟨"file-updated", fp⟩]⟩
    | .error (.raw .ENOENT) => ⟨.error (.PathDoesNotExist fp), h.fs, []⟩
    | .error e => ⟨.error e, h.fs, []⟩

/-! ## Watcher lifecycle (fs-watching module, src/unnamed/part_004 lines
567 to 609) -/

/-- Observable watcher bookkeeping: the usingFsWatcher suppression flag,
whether the chokidar handlers are attached, and whether the initial
subtree scan has signalled ready. -/
structure WatcherState where
  usingFsWatcher : Bool
  handlersAttached : Bool
  scanComplete : Bool
deriving DecidableEq, Repr

/-- State at construction: the flag is never assigned by the constructor,
so it is falsy. -/
def initialWatcherState : WatcherState :=
  ⟨false, false, false⟩

/-- Models the synchronous start of startWatcher, line 580: the
usingFsWatcher flag is set to true immediately, before the chokidar
watcher is even created and before its initial scan signals ready. -/
def startWatcherCall (s : WatcherState) : WatcherState :=
  { s with usingFsWatcher := true }

/-- Models the ready callback of startWatcher, lines 589 to 602: once the
initial scan signals ready the event handlers are attached and the start
promise resolves. -/
def watcherReady (s : WatcherState) : WatcherState :=
  { s with handlersAttached := true, scanComplete := true }

/-- Models destroyWatcher, lines 606 to 609: the flag returns to false
and the watcher is closed. -/
def destroyWatcher (s : WatcherState) : WatcherState :=
  { s with usingFsWatcher := false, handlersAttached := false }

/-! ## Well-formedness of listings -/

/-- Every key stored in the filesystem consists of plain segments, as is
the case for paths of a real directory tree: basenames returned by a
listing are nonempty, are not dot entries and contain no slash. -/
def WfFs (fs : Fs) : Prop :=
  ∀ e ∈ fs, ∀ x ∈ e.1, plainSeg x

instance (fs : Fs) : Decidable (WfFs fs) := by
  unfold WfFs; infer_instance

/-! ## Helper lemmas about the string-level path functions -/

theorem strAppend_data (a b : String) : (a ++ b).data = a.data ++ b.data := rfl

theorem str_eq_of_data (a b : String) (h : a.data = b.data) : a = b := by
  cases a; cases b; cases h; rfl

theorem splitSlash_ne_nil (l : List Char) : splitSlash l ≠ [] := by
  cases l with
  | nil => simp [splitSlash]
  | cons c rest =>
    simp only [splitSlash]
    by_cases hc : c = '/'
    · simp [hc]
    · simp only [hc, if_false]
      cases hs : splitSlash rest <;> simp

theorem splitSlash_append (l₁ l₂ : List Char) :
    splitSlash (l₁ ++ '/' :: l₂) = splitSlash l₁ ++ splitSlash l₂ := by
  induction l₁ with
  | nil => simp [splitSlash]
  | cons c rest ih =>
    by_cases hc : c = '/'
    · subst hc; simp [splitSlash, ih]
    · obtain ⟨h1, t1, he⟩ := List.exists_cons_of_ne_nil (splitSlash_ne_nil rest)
      simp [splitSlash, hc, ih, he]

theorem splitSlash_noSlash (l : List Char) (h : '/' ∉ l) : splitSlash l = [l] := by
  induction l with
  | nil => simp [splitSlash]
  | cons c rest ih =>
    have hc : c ≠ '/' := fun hh => h (hh ▸ List.mem_cons_self c rest)
    have hr : '/' ∉ rest := fun hh => h (List.mem_cons_of_mem c hh)
    have hcc : ¬ (c = '/') := hc
    simp [splitSlash, hcc, ih hr]

theorem splitSlash_mem_noSlash (l : List Char) :
    ∀ piece ∈ splitSlash l, '/' ∉ piece := by
  induction l with
  | nil => intro piece hp; simp [splitSlash] at hp; simp [hp]
  | cons c rest ih =>
    intro piece hp
    by_cases hc : c = '/'
    · subst hc
      simp only [splitSlash, if_pos rfl] at hp
      rcases List.mem_cons.mp hp with h | h
      · simp [h]
      · exact ih piece h
    · obtain ⟨h1, t1, he⟩ := List.exists_cons_of_ne_nil (splitSlash_ne_nil rest)
      simp only [splitSlash, hc, if_false, he] at hp
      rcases List.mem_cons.mp hp with h | h
      · subst h
        intro hmem
        rcases List.mem_cons.mp hmem with h2 | h2
        · exact hc h2.symm
        · exact ih h1 (he ▸ List.mem_cons_self h1 t1) h2
      · exact ih piece (he ▸ List.mem_cons_of_mem h1 h)

theorem strStartsWith_append (a b : String) : strStartsWith (a ++ b) a = true := by
  unfold strStartsWith
  rw [List.isPrefixOf_iff_prefix, strAppend_data]
  exact List.prefix_append a.data b.data

theorem data_append3 (f s : String) :
    (f ++ "/" ++ s).data = f.data ++ '/' :: s.data := by
  rw [strAppend_data, strAppend_data]
  simp

theorem append3_ne_empty (f s : String) : f ++ "/" ++ s ≠ "" := by
  intro h
  have := congrArg String.data h
  rw [data_append3] at this
  simp at this

theorem isPathWithin_of_descendant (f s : String) :
    isPathWithin (f ++ "/" ++ s) f = true := by
  unfold isPathWithin
  apply Bool.and_eq_true_iff.mpr
  constructor
  · unfold strStartsWith
    rw [List.isPrefixOf_iff_prefix, data_append3]
    exact ⟨'/' :: s.data, rfl⟩
  · rw [data_append3, splitSlash_append]
    have h2 : 0 < (splitSlash s.data).length :=
      List.length_pos.mpr (splitSlash_ne_nil s.data)
    simp only [List.length_append, decide_eq_true_iff]
    omega

theorem descendant_startsWith (f s t : String) (h : t = f ++ "/" ++ s) :
    strStartsWith t (f ++ "/") = true := by
  subst h
  unfold strStartsWith
  rw [List.isPrefixOf_iff_prefix]
  rw [show f ++ "/" ++ s = (f ++ "/") ++ s from rfl, strAppend_data]
  exact List.prefix_append _ _

theorem strStartsWith_empty_slash : strStartsWith "" "/" = false := rfl

theorem ensure_eq_of_startsWith (p : String) (h : strStartsWith p "/" = true) :
    ensureStartingFwSlash p = p := by
  simp [ensureStartingFwSlash, h]

theorem ensure_append (p s : String) (hne : p ≠ "") :
    ensureStartingFwSlash (p ++ "/" ++ s) = ensureStartingFwSlash p ++ "/" ++ s := by
  obtain ⟨c, rest, hc⟩ : ∃ c rest, p.data = c :: rest := by
    cases hd : p.data with
    | nil =>
      exact absurd (show p = "" from by
        cases p with
        | mk d => cases hd; rfl) hne
    | cons c rest => exact ⟨c, rest, rfl⟩
  by_cases hp : strStartsWith p "/" = true
  · have hp2 : strStartsWith (p ++ "/" ++ s) "/" = true := by
      unfold strStartsWith at hp ⊢
      rw [List.isPrefixOf_iff_prefix] at hp ⊢
      rw [data_append3]
      exact hp.trans (List.prefix_append p.data _)

    unfold ensureStartingFwSlash
    rw [if_pos hp, if_pos hp2]
  · have hcnz : c ≠ '/' := by
      intro he
      apply hp
      unfold strStartsWith
      rw [List.isPrefixOf_iff_prefix, hc, he]
      exact ⟨rest, rfl⟩
    have hp2 : ¬ (strStartsWith (p ++ "/" ++ s) "/" = true) := by
      unfold strStartsWith
      rw [List.isPrefixOf_iff_prefix, data_append3, hc]
      intro hpre
      rcases hpre with ⟨t, ht⟩
      have hcv : c = '/' := by
        have h2 := congrArg (fun l => l.head?) ht
        simpa using h2.symm
      exact hcnz hcv
    unfold ensureStartingFwSlash
    rw [if_neg hp2, if_neg hp]
    apply str_eq_of_data
    simp [strAppend_data]

/-! ## Helper lemmas about segment normalization -/

theorem normStack_append (l₁ l₂ : List String) : ∀ acc,
    normStack acc (l₁ ++ l₂) = (normStack acc l₁).bind (fun a => normStack a l₂) := by
  induction l₁ with
  | nil => intro acc; simp [normStack]
  | cons s rest ih =>
    intro acc
    simp only [List.cons_append, normStack]
    by_cases h1 : s = "" ∨ s = "."
    · simp only [h1, if_true]
      exact ih acc
    · simp only [h1, if_false]
      by_cases h2 : s = ".."
      · simp only [h2, if_pos rfl]
        cases acc with
        | nil => simp
        | cons a as => exact ih (a :: as).dropLast
      · simp only [h2, if_false]
        exact ih (acc ++ [s])

theorem normStack_plain : ∀ (rest acc out : List String),
    normStack acc rest = some out →
    (∀ x ∈ acc, plainSeg x) → (∀ x ∈ rest, '/' ∉ x.data) →
    ∀ x ∈ out, plainSeg x := by
  intro rest
  induction rest with
  | nil =>
    intro acc out h hacc _
    simp only [normStack, Option.some.injEq] at h
    exact h ▸ hacc
  | cons s rs ih =>
    intro acc out h hacc hrest
    simp only [normStack] at h
    by_cases h1 : s = "" ∨ s = "."
    · rw [if_pos h1] at h
      exact ih acc out h hacc (fun x hx => hrest x (List.mem_cons_of_mem s hx))
    · rw [if_neg h1] at h
      by_cases h2 : s = ".."
      · rw [if_pos h2] at h
        cases acc with
        | nil => exact absurd h (by simp)
        | cons a as =>
          exact ih (a :: as).dropLast out h
            (fun x hx => hacc x (List.mem_of_mem_dropLast hx))
            (fun x hx => hrest x (List.mem_cons_of_mem s hx))
      · rw [if_neg h2] at h
        apply ih (acc ++ [s]) out h
        · intro x hx
          rcases List.mem_append.mp hx with hx | hx
          · exact hacc x hx
          · have hxs : x = s := by simpa using hx
            rw [hxs]
            push_neg at h1
            exact ⟨h1.1, h1.2, h2, hrest s (List.mem_cons_self s rs)⟩
        · exact fun x hx => hrest x (List.mem_cons_of_mem s hx)

theorem strSegs_noSlash (p : String) : ∀ x ∈ strSegs p, '/' ∉ x.data := by
  intro x hx
  unfold strSegs at hx
  rcases List.mem_map.mp hx with ⟨piece, hpm, hpe⟩
  have := splitSlash_mem_noSlash p.data piece hpm
  rw [← hpe]
  exact this

theorem strSegs_append_plain (p n : String) (hn : '/' ∉ n.data) :
    strSegs (p ++ "/" ++ n) = strSegs p ++ [n] := by
  unfold strSegs
  rw [data_append3, splitSlash_append, splitSlash_noSlash n.data hn]
  rw [List.map_append]
  rfl

theorem normSegs_empty : normSegs "" = some [] := rfl

theorem normSegs_child (p n : String) (segs : List String)
    (hp : normSegs p = some segs) (hplain : plainSeg n) :
    normSegs (p ++ "/" ++ n) = some (segs ++ [n]) := by
  unfold normSegs at hp ⊢
  rw [strSegs_append_plain p n hplain.2.2.2, normStack_append, hp]
  have h1 : ¬ (n = "" ∨ n = ".") := by
    push_neg
    exact ⟨hplain.1, hplain.2.1⟩
  show normStack segs [n] = some (segs ++ [n])
  simp only [normStack, if_neg h1, if_neg hplain.2.2.1]

/-! ## Helper lemmas about the filesystem model -/

theorem lookupFs_mem {fs : Fs} {k : List String} {n : FNode} (h : (k, n) ∈ fs) :
    ∃ m, lookupFs fs k = some m := by
  induction fs with
  | nil => cases h
  | cons e rest ih =>
    obtain ⟨a, b⟩ := e
    by_cases he : a = k
    · exact ⟨b, by simp only [lookupFs]; rw [if_pos he]⟩
    · rcases List.mem_cons.mp h with h1 | h1
      · exact absurd (congrArg Prod.fst h1.symm) he
      · rcases ih h1 with ⟨m, hm⟩
        exact ⟨m, by simp only [lookupFs]; rw [if_neg he]; exact hm⟩

theorem childName_eq {segs k : List String} {n : String}
    (h : childName segs k = some n) : k = segs ++ [n] := by
  unfold childName at h
  split at h
  · rename_i htake
    split at h
    · rename_i n' hdrop
      cases h
      rw [← htake, ← hdrop]
      exact (List.take_append_drop segs.length k).symm
    · cases h
  · cases h

theorem mkdirpGo_ok : ∀ (rest : List String) (fs : Fs) (done : List String),
    (∀ q, q <+: (done ++ rest) → done <+: q → q ≠ done →
      ∀ c, lookupFs fs q ≠ some (.file c)) →
    ∃ fs2, mkdirpGo fs done rest = .ok fs2 := by
  intro rest
  induction rest with
  | nil => exact fun fs done _ => ⟨fs, rfl⟩
  | cons s rest' ih =>
    intro fs done hyp
    have hq0 : done ++ s :: rest' = (done ++ [s]) ++ rest' := by simp
    have hq0pre : (done ++ [s]) <+: (done ++ s :: rest') := by
      rw [hq0]; exact List.prefix_append _ _
    have hq0ne : done ++ [s] ≠ done := by
      intro he
      have := congrArg List.length he
      simp at this
    have hnofile := hyp (done ++ [s]) hq0pre (List.prefix_append done [s]) hq0ne
    simp only [mkdirpGo]
    cases hl : lookupFs fs (done ++ [s]) with
    | some v =>
      cases v with
      | file c => exact absurd hl (hnofile c)
      | dir =>
        apply ih fs (done ++ [s])
        intro q hq1 hq2 hq3 c
        have hdq : done <+: q := (List.prefix_append done [s]).trans hq2
        have hqd : q ≠ done := by
          intro he
          have h1 := hq2.length_le
          have := congrArg List.length he
          simp at h1 this
          omega
        exact hyp q (by rwa [hq0]) hdq hqd c
    | none =>
      have hrec := ih ((done ++ [s], FNode.dir) :: fs) (done ++ [s]) ?_
      · exact hrec
      · intro q hq1 hq2 hq3 c
        simp only [lookupFs]
        split
        · rename_i he
          exact absurd he.symm hq3
        · have hdq : done <+: q := (List.prefix_append done [s]).trans hq2
          have hqd : q ≠ done := by
            intro he
            have h1 := hq2.length_le
            have := congrArg List.length he
            simp at h1 this
            omega
          exact hyp q (by rwa [hq0]) hdq hqd c

theorem mkdirpGo_lookup_long : ∀ (rest : List String) (fs : Fs) (done : List String) (fs2 : Fs),
    mkdirpGo fs done rest = .ok fs2 →
    ∀ k : List String, (done ++ rest).length < k.length → lookupFs fs2 k = lookupFs fs k := by
  intro rest
  induction rest with
  | nil =>
    intro fs done fs2 h k _
    simp only [mkdirpGo] at h
    cases h
    rfl
  | cons s rest' ih =>
    intro fs done fs2 h k hk
    simp only [mkdirpGo] at h
    have hlen : ((done ++ [s]) ++ rest').length < k.length := by
      simp only [List.length_append, List.length_cons] at hk ⊢
      simp
      omega
    cases hl : lookupFs fs (done ++ [s]) with
    | some v =>
      cases v with
      | file c => rw [hl] at h; cases h
      | dir =>
        rw [hl] at h
        exact ih fs (done ++ [s]) fs2 h k hlen
    | none =>
      rw [hl] at h
      have := ih ((done ++ [s], FNode.dir) :: fs) (done ++ [s]) fs2 h k hlen
      rw [this]
      simp only [lookupFs]
      split
      · rename_i he
        exfalso
        have := congrArg List.length he
        simp only [List.length_append, List.length_cons] at this hlen
        simp at this
        omega
      · rfl

theorem mkdirpGo_target : ∀ (rest : List String) (fs : Fs) (done : List String) (fs2 : Fs),
    mkdirpGo fs done rest = .ok fs2 →
    (done = [] ∨ lookupFs fs done = some .dir) →
    ((done ++ rest) = [] ∨ lookupFs fs2 (done ++ rest) = some .dir) := by
  intro rest
  induction rest with
  | nil =>
    intro fs done fs2 h hd
    simp only [mkdirpGo] at h
    cases h
    simpa using hd
  | cons s rest' ih =>
    intro fs done fs2 h hd
    simp only [mkdirpGo] at h
    have hq0 : done ++ s :: rest' = (done ++ [s]) ++ rest' := by simp
    rw [hq0]
    cases hl : lookupFs fs (done ++ [s]) with
    | some v =>
      cases v with
      | file c => rw [hl] at h; cases h
      | dir =>
        rw [hl] at h
        exact ih fs (done ++ [s]) fs2 h (Or.inr hl)
    | none =>
      rw [hl] at h
      apply ih ((done ++ [s], FNode.dir) :: fs) (done ++ [s]) fs2 h
      right
      simp [lookupFs]

theorem pathExistsHandler_enoent (t : Option String) :
    pathExistsHandler (.error (.raw .ENOENT)) t = .ok false := rfl

theorem pathExistsHandler_error (e : HFsError) (t : Option String)
    (hne : e ≠ .raw .ENOENT) :
    pathExistsHandler (.error e) t = .error e := by
  cases e with
  | raw code =>
    cases code with
    | ENOENT => exact absurd rfl hne
    | ENOTDIR => rfl
    | EISDIR => rfl
    | EEXIST => rfl
  | InvalidOption o k => rfl
  | PathExists p => rfl
  | PathDoesNotExist p => rfl
  | PathIsDirectory p => rfl
  | PathIsNotDirectory p => rfl
  | IllegalPath p => rfl

/-! ## Claims -/

/-- Claim C1: for every input path string, including strings containing
arbitrary dot-dot segments, resolving it against the root either yields a
real path strictly under the configured root or fails with IllegalPath;
no resolution ever produces a path outside the root. -/
theorem resolve_contained (root p r : String) (h : resolve root p = .ok r) :
    strictlyUnder root r := by
  unfold resolve at h
  cases hn : normSegs p with
  | none => rw [hn] at h; cases h
  | some segs =>
    rw [hn] at h
    cases segs with
    | nil => cases h
    | cons s rest =>
      have hr := Except.ok.inj h
      refine ⟨s :: rest, by simp, ?_, hr.symm⟩
      intro x hx
      exact normStack_plain (strSegs p) [] (s :: rest) hn
        (fun y hy => absurd hy (List.not_mem_nil y))
        (strSegs_noSlash p) x hx

/-- Witness for C1 at a concrete adversarial path containing dot-dot and
dot segments. -/
theorem resolve_contained_witness : strictlyUnder "/root" "/root/b/c" :=
  resolve_contained "/root" "/a/../b/./c" "/root/b/c" (by rfl)

/-- Claim C2 evaluation at the failing input: with the watcher active
(usingFsWatcher set) and an existing file at /f, updateFile succeeds and
still publishes a file-updated event itself, because the source emits it
with the inherited emit instead of the guarded emit helper; createFile on
the same state correctly publishes nothing. -/
theorem updateFile_emits_during_watch :
    ((⟨[(["f"], FNode.file "old")], true⟩ : WHFs).usingFsWatcher = true) ∧
    (WHFs.updateFile ⟨[(["f"], FNode.file "old")], true⟩ "/f" "new").outcome = .ok () ∧
    (WHFs.updateFile ⟨[(["f"], FNode.file "old")], true⟩ "/f" "new").events =
      [⟨"file-updated", "/f"⟩] ∧
    (WHFs.createFile ⟨[(["f"], FNode.file "old")], true⟩ "/g" "x").events = [] :=
  ⟨rfl, rfl, rfl, rfl⟩

/-- Claim C6 counterexample: immediately after startWatcher is invoked
the usingFsWatcher flag is already true although the initial scan has not
signalled ready yet, refuting the claim that the flag is never true
before the initial scan has completed. -/
theorem watcher_flag_true_before_scan :
    (startWatcherCall initialWatcherState).usingFsWatcher = true ∧
    (startWatcherCall initialWatcherState).scanComplete = false :=
  ⟨rfl, rfl⟩

/-- Claim C6 as amended: the flag is false at construction, is set to
true at the start of startWatcher before the initial scan signals ready,
stays true once the scan is ready (at which point the forwarding handlers
are attached, and only then), and returns to false on destroyWatcher. -/
theorem watcher_flag_lifecycle :
    initialWatcherState.usingFsWatcher = false ∧
    initialWatcherState.handlersAttached = false ∧
    (startWatcherCall initialWatcherState).usingFsWatcher = true ∧
    (startWatcherCall initialWatcherState).scanComplete = false ∧
    (startWatcherCall initialWatcherState).handlersAttached = false ∧
    (watcherReady (startWatcherCall initialWatcherState)).usingFsWatcher = true ∧
    (watcherReady (startWatcherCall initialWatcherState)).handlersAttached = true ∧
    (watcherReady (startWatcherCall initialWatcherState)).scanComplete = true ∧
    (destroyWatcher (watcherReady (startWatcherCall initialWatcherState))).usingFsWatcher
      = false ∧
    (destroyWatcher (watcherReady (startWatcherCall initialWatcherState))).handlersAttached
      = false :=
  ⟨rfl, rfl, rfl, rfl, rfl, rfl, rfl, rfl, rfl, rfl⟩

/-- Claim C7: pathExists returns true iff the node exists and, when a
type of file or directory is requested, is of that kind; a raw ENOENT
stat outcome collapses to false; every other stat error is re-raised
unchanged. -/
theorem pathExists_spec (h : HFs) (path : String) (type : Option String)
    (hp : path ≠ "") :
    (h.pathExists path none = .ok true ↔ ∃ n, h.stat path = .ok n) ∧
    (h.pathExists path (some "file") = .ok true ↔ ∃ c, h.stat path = .ok (.file c)) ∧
    (h.pathExists path (some "directory") = .ok true ↔ h.stat path = .ok .dir) ∧
    (h.stat path = .error (.raw .ENOENT) → h.pathExists path type = .ok false) ∧
    (∀ e, h.stat path = .error e → e ≠ .raw .ENOENT → h.pathExists path type = .error e) := by
  unfold HFs.pathExists
  simp only [if_neg hp]
  cases hs : h.stat path with
  | ok n =>
    refine ⟨?_, ?_, ?_, ?_, ?_⟩
    · simp [pathExistsHandler, typeMatches]
    · cases n with
      | file c =>
        constructor
        · intro _
          exact ⟨c, rfl⟩
        · intro _
          rfl
      | dir =>
        constructor
        · intro hh
          exact Bool.noConfusion (Except.ok.inj hh)
        · rintro ⟨c, hc⟩
          exact absurd hc (by simp)
    · cases n with
      | file c =>
        constructor
        · intro hh
          exact Bool.noConfusion (Except.ok.inj hh)
        · intro hc
          exact absurd hc (by simp)
      | dir =>
        constructor
        · intro _
          rfl
        · intro _
          rfl
    · intro he
      exact absurd he (by simp)
    · intro e he
      exact absurd he (by simp)
  | error e =>
    refine ⟨?_, ?_, ?_, ?_, ?_⟩
    · by_cases he : e = .raw .ENOENT
      · subst he
        rw [pathExistsHandler_enoent]
        simp
      · rw [pathExistsHandler_error e none he]
        simp
    · by_cases he : e = .raw .ENOENT
      · subst he
        rw [pathExistsHandler_enoent]
        simp
      · rw [pathExistsHandler_error e (some "file") he]
        simp
    · by_cases he : e = .raw .ENOENT
      · subst he
        rw [pathExistsHandler_enoent]
        simp
      · rw [pathExistsHandler_error e (some "directory") he]
        simp
    · intro he
      have he2 : e = .raw .ENOENT := Except.error.inj he
      subst he2
      exact pathExistsHandler_enoent type
    · intro e2 he hne
      have he2 : e2 = e := (Except.error.inj he).symm
      subst he2
      exact pathExistsHandler_error e2 type hne

/-- Witness for C7 at a concrete state holding one file at /f. -/
theorem pathExists_spec_witness :
    ((HFs.pathExists ⟨[(["f"], FNode.file "c")], false⟩ "/f" none = .ok true ↔
      ∃ n, HFs.stat ⟨[(["f"], FNode.file "c")], false⟩ "/f" = .ok n) ∧
     (HFs.pathExists ⟨[(["f"], FNode.file "c")], false⟩ "/f" (some "file") = .ok true ↔
      ∃ c, HFs.stat ⟨[(["f"], FNode.file "c")], false⟩ "/f" = .ok (.file c)) ∧
     (HFs.pathExists ⟨[(["f"], FNode.file "c")], false⟩ "/f" (some "directory") = .ok true ↔
      HFs.stat ⟨[(["f"], FNode.file "c")], false⟩ "/f" = .ok .dir) ∧
     (HFs.stat ⟨[(["f"], FNode.file "c")], false⟩ "/f" = .error (.raw .ENOENT) →
      HFs.pathExists ⟨[(["f"], FNode.file "c")], false⟩ "/f" (some "directory") = .ok false) ∧
     (∀ e, HFs.stat ⟨[(["f"], FNode.file "c")], false⟩ "/f" = .error e →
      e ≠ .raw .ENOENT →
      HFs.pathExists ⟨[(["f"], FNode.file "c")], false⟩ "/f" (some "directory") = .error e)) :=
  pathExists_spec ⟨[(["f"], FNode.file "c")], false⟩ "/f" (some "directory") (by decide)

/-- Claim C4: when a node already exists at a path, createFile and
createDirectory both fail with PathExists carrying that path and leave
the filesystem unmodified, publishing nothing. -/
theorem create_on_existing_path_exists (h : HFs) (path contents : String)
    (segs : List String) (node : FNode)
    (hst : strStartsWith path "/" = true)
    (hn : normSegs path = some segs)
    (hstat : statFs h.fs segs = .ok node) :
    h.createFile path contents = ⟨.error (.PathExists path), h.fs, []⟩ ∧
    h.createDirectory path = ⟨.error (.PathExists path), h.fs, []⟩ := by
  have hne : path ≠ "" := by
    intro he
    rw [he] at hst
    exact absurd hst (by decide)
  have hens : ensureStartingFwSlash path = path := ensure_eq_of_startsWith path hst
  have hstatL : h.stat path = .ok node := by
    show statLogical h.fs path = .ok node
    unfold statLogical
    rw [hn]
    show (match statFs h.fs segs with
          | .ok n => Except.ok n
          | .error e => Except.error (HFsError.raw e)) = Except.ok node
    rw [hstat]
  have hex : h.pathExists path none = .ok true := by
    unfold HFs.pathExists
    rw [if_neg hne, hstatL]
    rfl
  constructor
  · simp only [HFs.createFile, if_neg hne, hens, hex]
  · simp only [HFs.createDirectory, if_neg hne, hens, hex]

/-- Witness for C4 at a concrete state with an existing file /a.txt. -/
theorem create_on_existing_path_exists_witness :
    (HFs.createFile ⟨[(["a.txt"], FNode.file "hi")], false⟩ "/a.txt" "zz" =
      ⟨.error (.PathExists "/a.txt"), [(["a.txt"], FNode.file "hi")], []⟩) ∧
    (HFs.createDirectory ⟨[(["a.txt"], FNode.file "hi")], false⟩ "/a.txt" =
      ⟨.error (.PathExists "/a.txt"), [(["a.txt"], FNode.file "hi")], []⟩) :=
  create_on_existing_path_exists ⟨[(["a.txt"], FNode.file "hi")], false⟩ "/a.txt" "zz"
    ["a.txt"] (FNode.file "hi") (by decide) (by decide) (by decide)

/-- Claim C5: whenever toPath is a descendant of fromPath, move rejects
with InvalidOption on the toPath option before any I/O: the filesystem is
unchanged and nothing is published. -/
theorem move_into_own_descendant_rejected (h : HFs) (fromPath toPath s : String)
    (hne : fromPath ≠ "") (hdesc : toPath = fromPath ++ "/" ++ s) :
    h.move fromPath toPath = ⟨.error (.InvalidOption "toPath" "invalidPath"), h.fs, []⟩ := by
  have htne : toPath ≠ "" := by
    rw [hdesc]
    exact append3_ne_empty fromPath s
  have hens : ensureStartingFwSlash toPath =
      ensureStartingFwSlash fromPath ++ "/" ++ s := by
    rw [hdesc]
    exact ensure_append fromPath s hne
  have hwithin : isPathWithin (ensureStartingFwSlash toPath)
      (ensureStartingFwSlash fromPath) = true := by
    rw [hens]
    exact isPathWithin_of_descendant _ s
  simp only [HFs.move, if_neg hne, if_neg htne, hwithin, if_true]

/-- Witness for C5 at the concrete pair of the spec example. -/
theorem move_into_own_descendant_rejected_witness :
    HFs.move ⟨[(["dir1"], FNode.dir)], false⟩ "/dir1" "/dir1/inner" =
      ⟨.error (.InvalidOption "toPath" "invalidPath"), [(["dir1"], FNode.dir)], []⟩ :=
  move_into_own_descendant_rejected ⟨[(["dir1"], FNode.dir)], false⟩
    "/dir1" "/dir1/inner" "inner" (by decide) (by decide)

/-- Claim C10: the within check of move is a textual string prefix test,
so a toPath that is not a descendant of fromPath is still rejected when
its string starts with the fromPath string with strictly more pieces:
moving /dir-1 to /dir-10/inner fails with InvalidOption on toPath even
though /dir-10/inner does not lie inside /dir-1. -/
theorem isPathWithin_textual_overmatch :
    (¬ ∃ s, "/dir-10/inner" = "/dir-1" ++ "/" ++ s) ∧
    isPathWithin "/dir-10/inner" "/dir-1" = true ∧
    HFs.move ⟨[], false⟩ "/dir-1" "/dir-10/inner" =
      ⟨.error (.InvalidOption "toPath" "invalidPath"), [], []⟩ := by
  refine ⟨?_, by decide, by rfl⟩
  rintro ⟨s, hs⟩
  have hpre := descendant_startsWith "/dir-1" s "/dir-10/inner" hs
  revert hpre
  decide

/-- Claim C3: every successful move with event publication enabled
publishes exactly the created event for toPath followed by the removed
event for fromPath, with matching node kinds, so the created event comes
strictly before the removed event. -/
theorem move_created_before_removed (h : HFs) (fromPath toPath : String)
    (hsup : h.suppressFsEvents = false)
    (hok : (h.move fromPath toPath).outcome = .ok ()) :
    ∃ ck rk, (h.move fromPath toPath).events =
      [⟨ck, ensureStartingFwSlash toPath⟩, ⟨rk, ensureStartingFwSlash fromPath⟩] ∧
      ((ck = "directory-created" ∧ rk = "directory-removed") ∨
       (ck = "file-created" ∧ rk = "file-removed")) := by
  rcases hmv : h.move fromPath toPath with ⟨o, f2, ev⟩
  rw [hmv] at hok
  unfold HFs.move at hmv
  dsimp only at hmv
  split at hmv
  · cases hmv; exact Except.noConfusion hok
  split at hmv
  · cases hmv; exact Except.noConfusion hok
  split at hmv
  · cases hmv; exact Except.noConfusion hok
  split at hmv
  · cases hmv; exact Except.noConfusion hok
  · cases hmv; exact Except.noConfusion hok
  · split at hmv
    · cases hmv; exact Except.noConfusion hok
    · cases hmv; exact Except.noConfusion hok
    · split at hmv
      · cases hmv; exact Except.noConfusion hok
      · cases hmv; exact Except.noConfusion hok
      · rename_i fromStats heqStat xres heqHandler
        cases hmv
        refine ⟨if FNode.isDirectory fromStats then "directory-created" else "file-created",
          if FNode.isDirectory fromStats then "directory-removed" else "file-removed",
          ?_, ?_⟩
        · show HFs.publishFsEvent h _ ++ HFs.publishFsEvent h _ = _
          simp [HFs.publishFsEvent, hsup]
        · cases FNode.isDirectory fromStats
          · right
            exact ⟨rfl, rfl⟩
          · left
            exact ⟨rfl, rfl⟩

/-- Witness for C3 at a concrete move of a directory with one child. -/
theorem move_created_before_removed_witness :
    ∃ ck rk, (HFs.move ⟨[(["src"], FNode.dir), (["src", "x"], FNode.file "1")], false⟩
        "/src" "/dst").events =
      [⟨ck, ensureStartingFwSlash "/dst"⟩, ⟨rk, ensureStartingFwSlash "/src"⟩] ∧
      ((ck = "directory-created" ∧ rk = "directory-removed") ∨
       (ck = "file-created" ∧ rk = "file-removed")) :=
  move_created_before_removed ⟨[(["src"], FNode.dir), (["src", "x"], FNode.file "1")], false⟩
    "/src" "/dst" rfl rfl

/-- Claim C8 counterexample: at a state with a file at /a no node exists
at /a/b, yet createFile of /a/b fails (the parent creation hits the file)
instead of succeeding as the claim as stated requires. -/
theorem createFile_under_file_fails :
    lookupFs [(["a"], FNode.file "x")] ["a", "b"] = none ∧
    (HFs.createFile ⟨[(["a"], FNode.file "x")], false⟩ "/a/b" "y").outcome =
      .error (.raw .ENOTDIR) ∧
    (HFs.createFile ⟨[(["a"], FNode.file "x")], false⟩ "/a/b" "y").fs =
      [(["a"], FNode.file "x")] :=
  ⟨rfl, rfl, rfl⟩

/-- Claim C8 as amended: when the path resolves inside the root to a
non-root target where no node exists, and every strictly shorter prefix
of the target is not occupied by a file, createFile followed by readFile
succeeds and returns exactly the written contents. -/
theorem createFile_readFile_roundtrip (h : HFs) (P C : String) (segs : List String)
    (hst : strStartsWith P "/" = true)
    (hn : normSegs P = some segs)
    (hsne : segs ≠ [])
    (habs : lookupFs h.fs segs = none)
    (hanc : ∀ q, q <+: segs → q ≠ segs → ∀ c, lookupFs h.fs q ≠ some (.file c)) :
    (h.createFile P C).outcome = .ok () ∧
    HFs.readFile ⟨(h.createFile P C).fs, h.suppressFsEvents⟩ P = .ok C := by
  have hne : P ≠ "" := by
    intro he
    rw [he] at hst
    exact absurd hst (by decide)
  have hens : ensureStartingFwSlash P = P := ensure_eq_of_startsWith P hst
  have hsf : statFs h.fs segs = .error .ENOENT := by
    unfold statFs
    rw [if_neg hsne, habs]
  have hstatL : h.stat P = .error (.raw .ENOENT) := by
    show statLogical h.fs P = _
    unfold statLogical
    rw [hn]
    show (match statFs h.fs segs with
          | .ok n => Except.ok n
          | .error e => Except.error (HFsError.raw e)) = _
    rw [hsf]
  have hex : h.pathExists P none = .ok false := by
    unfold HFs.pathExists
    rw [if_neg hne, hstatL]
    rfl
  have hanc2 : ∀ q, q <+: (([] : List String) ++ segs.dropLast) → ([] : List String) <+: q →
      q ≠ [] → ∀ c, lookupFs h.fs q ≠ some (.file c) := by
    intro q hq1 _ _ c
    rw [List.nil_append] at hq1
    have hqs : q <+: segs := hq1.trans (List.dropLast_prefix segs)
    have hqlen : q.length ≤ segs.dropLast.length := hq1.length_le
    have hqne : q ≠ segs := by
      intro he
      rw [he, List.length_dropLast] at hqlen
      have := List.length_pos.mpr hsne
      omega
    exact hanc q hqs hqne c
  obtain ⟨fs1, hfs1⟩ := mkdirpGo_ok segs.dropLast h.fs [] hanc2
  have hmk : mkdirpFs h.fs segs.dropLast = .ok fs1 := hfs1
  have hlook1 : lookupFs fs1 segs = none := by
    rw [mkdirpGo_lookup_long segs.dropLast h.fs [] fs1 hfs1 segs ?_, habs]
    rw [List.nil_append, List.length_dropLast]
    have := List.length_pos.mpr hsne
    omega
  have htgt := mkdirpGo_target segs.dropLast h.fs [] fs1 hfs1 (Or.inl rfl)
  rw [List.nil_append] at htgt
  have hparent : (if segs.dropLast = [] then Except.ok FNode.dir else
      match lookupFs fs1 segs.dropLast with
      | some n => Except.ok n
      | none => Except.error FsErr.ENOENT) = Except.ok FNode.dir := by
    by_cases hdl0 : segs.dropLast = []
    · rw [if_pos hdl0]
    · rw [if_neg hdl0]
      rcases htgt with hdl | hdl
      · exact absurd hdl hdl0
      · rw [hdl]
  have hwrite : fsWrite fs1 segs C = .ok ((segs, FNode.file C) :: fs1) := by
    unfold fsWrite
    rw [if_neg hsne, hparent, hlook1]
  have hcf : h.createFile P C =
      ⟨.ok (), (segs, FNode.file C) :: fs1, h.publishFsEvent ⟨"file-created", P⟩⟩ := by
    simp only [HFs.createFile, if_neg hne, hens, hex, hn, hmk, hwrite]
  have hread : fsRead ((segs, FNode.file C) :: fs1) segs = .ok C := by
    unfold fsRead
    rw [if_neg hsne]
    simp [lookupFs]
  constructor
  · rw [hcf]
  · rw [hcf]
    show HFs.readFile ⟨(segs, FNode.file C) :: fs1, h.suppressFsEvents⟩ P = .ok C
    simp only [HFs.readFile, if_neg hne, hens, hn, hread]

/-- Witness for C8 as amended: creating /a.txt with contents hello on an
empty tree and reading it back yields hello. -/
theorem createFile_readFile_roundtrip_witness :
    (HFs.createFile ⟨[], false⟩ "/a.txt" "hello").outcome = .ok () ∧
    HFs.readFile ⟨(HFs.createFile ⟨[], false⟩ "/a.txt" "hello").fs, false⟩ "/a.txt" =
      .ok "hello" :=
  createFile_readFile_roundtrip ⟨[], false⟩ "/a.txt" "hello" ["a.txt"]
    (by decide) (by decide) (by decide) (by decide)
    (fun q _ _ c hc => Option.noConfusion hc)

theorem statEntries_spec (fs : Fs) (dp : String) (dsegs : List String)
    (hdp : normSegs dp = some dsegs) :
    ∀ names, (∀ n ∈ names, plainSeg n ∧ ∃ m, lookupFs fs (dsegs ++ [n]) = some m) →
    ∃ entries, statEntries fs dp names = .ok entries ∧
      List.Forall₂ (fun name e =>
        e.path = dp ++ "/" ++ name ∧ e.basename = name ∧
        (strSegs e.path).getLast? = some e.basename ∧
        e.isDirectory = !e.isFile) names entries := by
  intro names
  induction names with
  | nil => exact fun _ => ⟨[], rfl, List.Forall₂.nil⟩
  | cons nm rest ih =>
    intro hall
    obtain ⟨hplain, m, hm⟩ := hall nm (List.mem_cons_self nm rest)
    have hcs : normSegs (dp ++ "/" ++ nm) = some (dsegs ++ [nm]) :=
      normSegs_child dp nm dsegs hdp hplain
    have hsne2 : dsegs ++ [nm] ≠ [] := by simp
    have hsf : statFs fs (dsegs ++ [nm]) = .ok m := by
      unfold statFs
      rw [if_neg hsne2, hm]
    have hstat : statLogical fs (dp ++ "/" ++ nm) = .ok m := by
      unfold statLogical
      rw [hcs]
      show (match statFs fs (dsegs ++ [nm]) with
            | .ok n => Except.ok n
            | .error e => Except.error (HFsError.raw e)) = Except.ok m
      rw [hsf]
    obtain ⟨entries, he, hfa⟩ := ih (fun n hn => hall n (List.mem_cons_of_mem nm hn))
    refine ⟨⟨dp ++ "/" ++ nm, nm, m.isDirectory, m.isFile⟩ :: entries, ?_, ?_⟩
    · simp only [statEntries, hstat, he]
    · refine List.Forall₂.cons ⟨rfl, rfl, ?_, ?_⟩ hfa
      · show (strSegs (dp ++ "/" ++ nm)).getLast? = some nm
        rw [strSegs_append_plain dp nm hplain.2.2.2]
        exact List.getLast?_concat _
      · cases m <;> rfl

/-- Claim C9: for an existing directory in a well-formed tree,
readDirectory returns exactly one entry per listed child, the entry path
is the normalized parent path concatenated with a slash and the raw
basename, the basename is the last path segment of the entry path, and
exactly one of isDirectory and isFile is true per entry. -/
theorem readDirectory_spec (h : HFs) (dirpath : String) (dsegs : List String)
    (hwf : WfFs h.fs)
    (hn : normSegs (normDirPath dirpath) = some dsegs)
    (hdir : statFs h.fs dsegs = .ok .dir) :
    ∃ entries, h.readDirectory dirpath = .ok entries ∧
      List.Forall₂ (fun name e =>
        e.path = normDirPath dirpath ++ "/" ++ name ∧ e.basename = name ∧
        (strSegs e.path).getLast? = some e.basename ∧
        e.isDirectory = !e.isFile) (childNames h.fs dsegs) entries := by
  have hif : (if normDirPath dirpath = "" then some [] else normSegs (normDirPath dirpath))
      = some dsegs := by
    by_cases hdp : normDirPath dirpath = ""
    · rw [if_pos hdp]
      rw [hdp, normSegs_empty] at hn
      exact hn
    · rw [if_neg hdp]
      exact hn
  have hrd : readdirFs h.fs dsegs = .ok (childNames h.fs dsegs) := by
    unfold readdirFs
    rw [hdir]
  have hchild : ∀ n ∈ childNames h.fs dsegs,
      plainSeg n ∧ ∃ m, lookupFs h.fs (dsegs ++ [n]) = some m := by
    intro n hn2
    unfold childNames at hn2
    rcases List.mem_filterMap.mp hn2 with ⟨e, hem, hcn⟩
    have hk := childName_eq hcn
    constructor
    · apply hwf e hem
      rw [hk]
      simp
    · have hmem2 : (dsegs ++ [n], e.2) ∈ h.fs := by
        rw [← hk]
        exact hem
      exact lookupFs_mem hmem2
  obtain ⟨entries, he, hfa⟩ := statEntries_spec h.fs (normDirPath dirpath) dsegs hn
    (childNames h.fs dsegs) hchild
  refine ⟨entries, ?_, hfa⟩
  simp only [HFs.readDirectory, hif, hrd, he]

/-- Witness for C9 at a concrete directory /dir1 with a file child x and
a directory child y. -/
theorem readDirectory_spec_witness :
    ∃ entries,
      HFs.readDirectory ⟨[(["dir1", "x"], FNode.file "cx"), (["dir1"], FNode.dir),
        (["dir1", "y"], FNode.dir)], false⟩ "/dir1" = .ok entries ∧
      List.Forall₂ (fun name e =>
        e.path = normDirPath "/dir1" ++ "/" ++ name ∧ e.basename = name ∧
        (strSegs e.path).getLast? = some e.basename ∧
        e.isDirectory = !e.isFile)
        (childNames [(["dir1", "x"], FNode.file "cx"), (["dir1"], FNode.dir),
          (["dir1", "y"], FNode.dir)] ["dir1"]) entries :=
  readDirectory_spec ⟨[(["dir1", "x"], FNode.file "cx"), (["dir1"], FNode.dir),
    (["dir1", "y"], FNode.dir)], false⟩ "/dir1" ["dir1"]
    (by decide) (by decide) (by decide)

end VirtualFs
